import Mathlib

/-!
Verification of the `wami` project-detection and command-resolution engine.

The TypeScript sources are shallowly embedded: filesystem contents are
passed in as explicit predicates / lists, directories are lists of path
components ordered leaf-first (so the parent of `c :: rest` is `rest` and
the filesystem root is `[]`), and fallible operations return `Option`.
-/

namespace Wami

/-! ## Data model (src/types/index.ts) -/

/-- `Script` from src/types/index.ts: a named runnable command.
The optional `interactive` flag is never produced by the detectors'
parsing or override code and is omitted. -/
structure Script where
  name : String
  command : String
  description : Option String := none
deriving DecidableEq, Repr

/-- A directory, as its path components ordered leaf-first: the parent of
`c :: rest` is `rest`, and `[]` is the filesystem root. -/
abbrev Dir := List String

/-- One entry of the `commands` map of a `.wami.json` file: either a bare
command string or an object carrying a command and an optional description
(the only fields the detectors' `applyConfig` reads). -/
inductive CmdConfig where
  | str (command : String)
  | obj (command : String) (description : Option String)
deriving DecidableEq, Repr

/-- `WamiConfig` from src/types/index.ts, restricted to the fields the
override layer reads.  `commands` is the JSON object in key order
(JavaScript object keys are unique and iterated in insertion order). -/
structure WamiConfig where
  commands : List (String × CmdConfig) := []
  ignore : List String := []
deriving DecidableEq, Repr

/-- The `Script` built from one `commands` entry by `applyConfig`
(both the Python and the Go detector build it the same way). -/
def scriptOfConfig (name : String) : CmdConfig → Script
  | .str c => { name := name, command := c }
  | .obj c d => { name := name, command := c, description := d }

/-! ## Filesystem probe (src/utils/fs.ts) -/

/-- `findFileUpwards` from src/utils/fs.ts: walk up from `cwd`, returning
the first directory in which `fsHas dir fileName` holds, or `none` once
the filesystem root has been checked without success.  `fsHas` stands for
the `fs.access` existence test of `path.join(dir, fileName)`. -/
def findFileUpwards (fsHas : Dir → String → Bool) : Dir → String → Option Dir
  | [], fileName => if fsHas [] fileName then some [] else none
  | c :: rest, fileName =>
    if fsHas (c :: rest) fileName then some (c :: rest)
    else findFileUpwards fsHas rest fileName

/-- The number of existence checks `findFileUpwards` performs before
returning (each loop iteration performs exactly one `fs.access`). -/
def findFileUpwardsChecks (fsHas : Dir → String → Bool) : Dir → String → Nat
  | [], _ => 1
  | c :: rest, fileName =>
    if fsHas (c :: rest) fileName then 1
    else 1 + findFileUpwardsChecks fsHas rest fileName

/-- `findAllFilesUpwards` from src/utils/fs.ts: every ancestor directory
(starting directory first, i.e. nearest first) containing the file. -/
def findAllFilesUpwards (fsHas : Dir → String → Bool) : Dir → String → List Dir
  | [], fileName => if fsHas [] fileName then [[]] else []
  | c :: rest, fileName =>
    (if fsHas (c :: rest) fileName then [c :: rest] else []) ++
      findAllFilesUpwards fsHas rest fileName

/-! ## Node.js package managers (src/core/node/package-managers.ts) -/

/-- `NodePackageManagerDefinition` from src/core/node/package-managers.ts. -/
structure NodePackageManagerDefinition where
  id : String
  lockFiles : List String
  configFiles : List String
  buildRunCommand : String → String

def bun : NodePackageManagerDefinition :=
  { id := "bun"
    lockFiles := ["bun.lockb", "bun.lock"]
    configFiles := ["bunfig.toml"]
    buildRunCommand := fun script => "bun " ++ script }

def pnpm : NodePackageManagerDefinition :=
  { id := "pnpm"
    lockFiles := ["pnpm-lock.yaml"]
    configFiles := [".npmrc", "pnpm-workspace.yaml"]
    buildRunCommand := fun script => "pnpm " ++ script }

def yarn : NodePackageManagerDefinition :=
  { id := "yarn"
    lockFiles := ["yarn.lock"]
    configFiles := [".yarnrc.yml", ".yarnrc", "yarn.config.mjs"]
    buildRunCommand := fun script => "yarn " ++ script }

def npm : NodePackageManagerDefinition :=
  { id := "npm"
    lockFiles := ["package-lock.json"]
    configFiles := [".npmrc"]
    buildRunCommand := fun script => "npm run " ++ script }

/-- `NODE_PACKAGE_MANAGERS`: detection priority order; the first
definition whose lock file is present wins, npm is the fallback. -/
def NODE_PACKAGE_MANAGERS : List NodePackageManagerDefinition :=
  [bun, pnpm, yarn, npm]

/-- `findNodePackageManager` from src/core/node/package-managers.ts. -/
def findNodePackageManager (id : String) : Option NodePackageManagerDefinition :=
  NODE_PACKAGE_MANAGERS.find? (fun pm => pm.id == id)

/-- `NodeJSDetector.detectPackageManager`: `fileInRoot f` stands for the
existence of `path.join(projectRoot, f)`.  The nested loop over managers
and their lock files, with early return, is `find?` over the priority
list; the fallback is `npm`. -/
def detectPackageManager (fileInRoot : String → Bool) : String :=
  match NODE_PACKAGE_MANAGERS.find? (fun pm => pm.lockFiles.any fileInRoot) with
  | some pm => pm.id
  | none => "npm"

/-- The part of `PackageInfo` that `NodeJSDetector.buildCommand` receives. -/
structure NodePackageInfo where
  packageManager : String
  scripts : List Script

/-- `NodeJSDetector.buildCommand` from src/core/node/package-managers.ts:
delegates to the package manager definition, formatting from the script
NAME only; the stored command strings of `packageInfo.scripts` are not
consulted. -/
def nodeBuildCommand (packageInfo : NodePackageInfo) (scriptName : String) : String :=
  match findNodePackageManager packageInfo.packageManager with
  | some pm => pm.buildRunCommand scriptName
  | none => packageInfo.packageManager ++ " " ++ scriptName

/-! ## String helpers (JavaScript `String.prototype.includes`) -/

/-- Does `pat` occur at the start of `s`? -/
def beginsWith : List Char → List Char → Bool
  | [], _ => true
  | _ :: _, [] => false
  | p :: ps, c :: cs => p == c && beginsWith ps cs

/-- Does `pat` occur anywhere in the character list? -/
def occursIn (pat : List Char) : List Char → Bool
  | [] => pat.isEmpty
  | c :: cs => beginsWith pat (c :: cs) || occursIn pat cs

/-- JavaScript `s.includes(pat)`. -/
def strIncludes (s pat : String) : Bool :=
  occursIn pat.data s.data

/-! ## User-override layer (`applyConfig` in the Python and Go detectors) -/

/-- JavaScript `Array.prototype.findIndex` (restricted to scripts),
returning `none` instead of `-1`. -/
def findIndex (p : Script → Bool) : List Script → Option Nat
  | [] => none
  | s :: rest => if p s then some 0 else (findIndex p rest).map (· + 1)

/-- One iteration of the `applyConfig` override loop: build the script
from the config entry, then either replace the first same-named entry in
place (`findIndex` + assignment) or push it at the end. -/
def applyOverride (scripts : List Script) (entry : String × CmdConfig) : List Script :=
  let script := scriptOfConfig entry.1 entry.2
  match findIndex (fun s => s.name == entry.1) scripts with
  | some i => scripts.set i script
  | none => scripts ++ [script]

/-- `applyConfig` (identical in `PythonDetector` and `GoDetector`):
filter out ignored names, then fold the override loop over the `commands`
entries in key order. -/
def applyConfig (scripts : List Script) (config : WamiConfig) : List Script :=
  let filteredScripts := scripts.filter (fun s => !(config.ignore.contains s.name))
  config.commands.foldl applyOverride filteredScripts

/-! ## Python detector (src/core/python-detector.ts) -/

/-- A `[tool.pdm.scripts]` value: plain string or a table with a `cmd`
field (absent `cmd` reads as the empty string, like `(value).cmd || ''`). -/
inductive PdmScriptVal where
  | str (s : String)
  | obj (cmd : Option String)
deriving DecidableEq, Repr

/-- The `[tool.poetry]` section. -/
structure PoetrySection where
  name : Option String := none
  scripts : Option (List (String × String)) := none
deriving DecidableEq, Repr

/-- The `[tool.pdm]` section. -/
structure PdmSection where
  name : Option String := none
  scripts : Option (List (String × PdmScriptVal)) := none
deriving DecidableEq, Repr

/-- The `[project]` section (PEP 621). -/
structure ProjectSection where
  name : Option String := none
  scripts : Option (List (String × String)) := none
deriving DecidableEq, Repr

/-- The decoded `pyproject.toml` fields `PythonDetector.parsePyProject`
reads (tables in declaration order, keys unique). -/
structure PyToml where
  toolPoetry : Option PoetrySection := none
  toolPdm : Option PdmSection := none
  project : Option ProjectSection := none
deriving DecidableEq, Repr

/-- JavaScript `a || b` for an optional string (the empty string is falsy). -/
def jsOr (a : Option String) (b : String) : String :=
  match a with
  | some s => if s.isEmpty then b else s
  | none => b

/-- Result triple of `PythonDetector.parsePyProject`. -/
structure PyParseResult where
  name : String
  scripts : List Script
  packageManager : String
deriving DecidableEq, Repr

/-- The duplicate-name filter applied to tool-inference contributions in
both `PythonDetector.parsePyProject` and `NodeJSDetector.parse`: a tool
script is kept only when no existing script already uses its name. -/
def uniqueToolFilter (scripts toolScripts : List Script) : List Script :=
  toolScripts.filter (fun tool => !((scripts.map Script.name).contains tool.name))

/-- `PythonDetector.parsePyProject` (src/core/python-detector.ts).
`dirName` is `path.basename(projectRoot)`; the three booleans are the
`uv.lock` / `poetry.lock` / `pdm.lock` existence checks; `taskScripts` is
the output of `pythonParserRegistry.parseAll(toml)` and `toolScripts` the
output of `detectPythonTools` (both external registries, passed in as the
values they return). -/
def parsePyProject (toml : PyToml) (dirName : String)
    (hasUvLock hasPoetryLock hasPdmLock : Bool)
    (taskScripts toolScripts : List Script) : PyParseResult :=
  let base : PyParseResult :=
    if toml.toolPoetry.isSome || hasPoetryLock then
      let name := jsOr (toml.toolPoetry.bind PoetrySection.name) dirName
      let scripts :=
        match toml.toolPoetry.bind PoetrySection.scripts with
        | some entries => entries.map (fun kv => { name := kv.1, command := kv.2 })
        | none => []
      let scripts := scripts ++
        [ { name := "install", command := "poetry install" },
          { name := "shell", command := "poetry shell" },
          { name := "run", command := "poetry run python" } ]
      { name := name, scripts := scripts, packageManager := "poetry" }
    else if toml.toolPdm.isSome || hasPdmLock then
      let name := jsOr (toml.toolPdm.bind PdmSection.name)
        (jsOr (toml.project.bind ProjectSection.name) dirName)
      let scripts :=
        match toml.toolPdm.bind PdmSection.scripts with
        | some entries => entries.map (fun kv =>
            match kv.2 with
            | .str s => { name := kv.1, command := s }
            | .obj cmd => { name := kv.1, command := jsOr cmd "" })
        | none => []
      let scripts := scripts ++
        [ { name := "install", command := "pdm install" },
          { name := "run", command := "pdm run" } ]
      { name := name, scripts := scripts, packageManager := "pdm" }
    else if hasUvLock then
      let name := jsOr (toml.project.bind ProjectSection.name) dirName
      let scripts :=
        match toml.project.bind ProjectSection.scripts with
        | some entries => entries.map (fun kv =>
            { name := kv.1, command := "uv run " ++ kv.1 })
        | none => []
      let scripts := scripts ++
        [ { name := "sync", command := "uv sync",
            description := some "Install and sync dependencies" },
          { name := "python", command := "uv run python",
            description := some "Run Python interpreter" } ]
      { name := name, scripts := scripts, packageManager := "uv" }
    else if (toml.project.bind ProjectSection.scripts).isSome then
      let name := jsOr (toml.project.bind ProjectSection.name) dirName
      let scripts :=
        match toml.project.bind ProjectSection.scripts with
        | some entries => entries.map (fun kv =>
            { name := kv.1, command := "python -m " ++ kv.1 })
        | none => []
      let scripts := scripts ++
        [ { name := "install", command := "pip install -e .",
            description := some "Install package in editable mode" } ]
      { name := name, scripts := scripts, packageManager := "pip" }
    else
      { name := dirName, scripts := [], packageManager := "pip" }
  let scripts := base.scripts ++ taskScripts
  let scripts := scripts ++ uniqueToolFilter scripts toolScripts
  { base with scripts := scripts }

/-- Common pipenv commands appended by `PythonDetector.parsePipfile`. -/
def pipenvBuiltins : List Script :=
  [ { name := "install", command := "pipenv install" },
    { name := "shell", command := "pipenv shell" },
    { name := "run", command := "pipenv run" } ]

/-- `PythonDetector.getDefaultPipScripts`. -/
def getDefaultPipScripts : List Script :=
  [ { name := "install", command := "pip install -r requirements.txt" },
    { name := "freeze", command := "pip freeze > requirements.txt" } ]

/-- The script list produced by `PythonDetector.parse`: branch on which
marker file exists at the project root (`pyproject.toml`, else `Pipfile`,
else `requirements.txt`), then apply `.wami.json` overrides when a config
was loaded. -/
def pythonParseScripts (pyproject : Option PyToml)
    (pipfileScripts : Option (List (String × String))) (hasRequirements : Bool)
    (dirName : String) (hasUvLock hasPoetryLock hasPdmLock : Bool)
    (taskScripts toolScripts : List Script)
    (config : Option WamiConfig) : List Script :=
  let scripts :=
    match pyproject with
    | some toml =>
      (parsePyProject toml dirName hasUvLock hasPoetryLock hasPdmLock
        taskScripts toolScripts).scripts
    | none =>
      match pipfileScripts with
      | some entries =>
        entries.map (fun kv => { name := kv.1, command := kv.2 }) ++ pipenvBuiltins
      | none => if hasRequirements then getDefaultPipScripts else []
  match config with
  | some cfg => applyConfig scripts cfg
  | none => scripts

/-- `PythonDetector.buildCommand` (src/core/python-detector.ts): if the
selected script's stored command already contains the package manager's
name, or any of the four `<tool> run` strings, it is returned as-is;
otherwise the manager's run syntax is prepended; a script name not in the
list falls back to wrapping the bare name. -/
def pythonBuildCommand (packageManager : String) (scripts : List Script)
    (scriptName : String) : String :=
  match scripts.find? (fun s => s.name == scriptName) with
  | some script =>
    if strIncludes script.command packageManager
        || strIncludes script.command "uv run"
        || strIncludes script.command "poetry run"
        || strIncludes script.command "pdm run"
        || strIncludes script.command "pipenv run" then
      script.command
    else
      match packageManager with
      | "uv" => "uv run " ++ script.command
      | "poetry" => "poetry run " ++ script.command
      | "pdm" => "pdm run " ++ script.command
      | "pipenv" => "pipenv run " ++ script.command
      | _ => script.command
  | none =>
    match packageManager with
    | "uv" => "uv run " ++ scriptName
    | "poetry" => "poetry run " ++ scriptName
    | "pdm" => "pdm run " ++ scriptName
    | "pipenv" => "pipenv run " ++ scriptName
    | _ => "python " ++ scriptName

/-- `PythonDetector.detect`: each marker file is searched over the whole
ancestor chain before the next one is tried. -/
def pythonDetect (fsHas : Dir → String → Bool) (cwd : Dir) : Option Dir :=
  match findFileUpwards fsHas cwd "pyproject.toml" with
  | some pyprojectRoot => some pyprojectRoot
  | none =>
    match findFileUpwards fsHas cwd "Pipfile" with
    | some pipfileRoot => some pipfileRoot
    | none =>
      match findFileUpwards fsHas cwd "requirements.txt" with
      | some reqRoot => some reqRoot
      | none => none

/-! ## Node.js parse (src/core/node/package-managers.ts, `NodeJSDetector.parse`) -/

/-- `NodeJSDetector.extractScripts`: the flat `scripts` table of
`package.json`, in key order. -/
def nodeExtractScripts (scripts : Option (List (String × String))) : List Script :=
  match scripts with
  | none => []
  | some entries => entries.map (fun kv => { name := kv.1, command := kv.2 })

/-- The script list produced by `NodeJSDetector.parse`: manifest scripts
followed by the tool-inference contributions that do not collide with an
existing script name (`toolScripts` is the output of
`detectToolCommands`, passed in as the value it returns). -/
def nodeParseScripts (manifestScripts : Option (List (String × String)))
    (toolScripts : List Script) : List Script :=
  let scripts := nodeExtractScripts manifestScripts
  scripts ++ uniqueToolFilter scripts toolScripts

/-! ## Workspace resolver (`NodeJSDetector.detectWorkspace`) -/

/-- The fields of a decoded `package.json` that `detectWorkspace` reads:
the declared name and the `workspaces` field (`some` when the manifest
declares one — an array is always truthy in JavaScript). -/
structure PackageJson where
  name : Option String := none
  workspaces : Option (List String) := none
deriving DecidableEq, Repr

/-- `WorkspaceInfo` from src/types/index.ts (paths as `Dir`,
`relativePath` as components from the workspace root downward). -/
structure WorkspaceInfo where
  isWorkspace : Bool
  workspaceRoot : Dir
  workspaceName : String
  relativePath : List String
deriving DecidableEq, Repr

/-- `path.basename` of a directory. -/
def basename : Dir → String
  | [] => ""
  | c :: _ => c

/-- `path.relative(parent, current)` for an ancestor `parent` of
`current`: the extra components of `current`, ordered from the workspace
root downward. -/
def relativeTo (parent current : Dir) : List String :=
  (current.take (current.length - parent.length)).reverse

/-- `NodeJSDetector.detectWorkspace`: collect every ancestor with a
`package.json` (nearest first); with at most one there is no workspace;
otherwise scan the parents from the second-nearest outward and stop at
the first whose manifest declares `workspaces`.  `manifest` stands for
`readJsonFile` of that directory's `package.json`. -/
def detectWorkspace (fsHas : Dir → String → Bool) (manifest : Dir → PackageJson)
    (projectRoot : Dir) : Option WorkspaceInfo :=
  let allPackageRoots := findAllFilesUpwards fsHas projectRoot "package.json"
  if allPackageRoots.length ≤ 1 then none
  else
    match allPackageRoots with
    | [] => none
    | currentPackageRoot :: parents =>
      (parents.find? (fun p => (manifest p).workspaces.isSome)).map
        (fun parentRoot =>
          { isWorkspace := true
            workspaceRoot := parentRoot
            workspaceName := jsOr (manifest parentRoot).name (basename parentRoot)
            relativePath := relativeTo parentRoot currentPackageRoot })

/-! ## Go detector (src/core/go/detector.ts) -/

/-- `[a-zA-Z]`. -/
def isAlphaChar (c : Char) : Bool :=
  ('a' ≤ c && c ≤ 'z') || ('A' ≤ c && c ≤ 'Z')

/-- `[a-zA-Z0-9_-]`, the Makefile target character class. -/
def isTargetChar (c : Char) : Bool :=
  isAlphaChar c || ('0' ≤ c && c ≤ '9') || c == '_' || c == '-'

/-- `[a-zA-Z0-9_:-]`, the Taskfile task-name character class. -/
def isTaskChar (c : Char) : Bool :=
  isTargetChar c || c == ':'

/-- `\s` on a single character. -/
def isWsChar (c : Char) : Bool :=
  c == ' ' || c == '\t' || c == '\n' || c == '\r'

/-- Drop leading whitespace. -/
def dropWs : List Char → List Char
  | [] => []
  | c :: cs => if isWsChar c then dropWs cs else c :: cs

/-- JavaScript `String.prototype.trim`. -/
def trimChars (cs : List Char) : List Char :=
  (dropWs (dropWs cs.reverse).reverse)

/-- Accumulator-based splitting on whitespace runs; `cur` holds the
characters of the word being read, reversed. -/
def wordsOfAux (cur : List Char) : List Char → List String
  | [] => if cur.isEmpty then [] else [String.mk cur.reverse]
  | c :: cs =>
    if isWsChar c then
      if cur.isEmpty then wordsOfAux [] cs
      else String.mk cur.reverse :: wordsOfAux [] cs
    else wordsOfAux (c :: cur) cs

/-- Split on runs of whitespace (the `split(/\s+/)` of a trimmed,
nonempty string). -/
def wordsOf (cs : List Char) : List String :=
  wordsOfAux [] cs

/-- The match of `/^\.PHONY\s*:\s*(.+)$/` on one line followed by
`group.trim().split(/\s+/)`: the declared phony targets, or `none` when
the line is not a `.PHONY` declaration. -/
def parsePhonyLine (cs : List Char) : Option (List String) :=
  if cs.take 6 = ".PHONY".data then
    match dropWs (cs.drop 6) with
    | ':' :: rest =>
      if rest.isEmpty then none
      else
        let body := trimChars rest
        some (if body.isEmpty then [""] else wordsOf body)
    | _ => none
  else none

/-- The match of `/^([a-zA-Z][a-zA-Z0-9_-]*):/` on one line: the target
name declared by a `target:` line. -/
def makefileTargetOfLine (cs : List Char) : Option String :=
  match cs with
  | [] => none
  | c :: _ =>
    if isAlphaChar c then
      let run := cs.takeWhile isTargetChar
      match cs.drop run.length with
      | ':' :: _ => some (String.mk run)
      | _ => none
    else none

/-- Insertion into a JavaScript `Set` viewed as its insertion-ordered
element list. -/
def addTarget (acc : List String) (t : String) : List String :=
  if acc.contains t then acc else acc ++ [t]

/-- The target set accumulated by `GoDetector.parseMakefile`: every
`.PHONY` list entry (first pass), then every `target:` declaration
(second pass), deduplicated in first-insertion order. -/
def makefileTargets (lines : List String) : List String :=
  let phony := lines.foldl
    (fun acc line =>
      match parsePhonyLine line.data with
      | some ts => ts.foldl addTarget acc
      | none => acc) []
  lines.foldl
    (fun acc line =>
      match makefileTargetOfLine line.data with
      | some t => addTarget acc t
      | none => acc) phony

/-- The `Script` built for one Makefile target. -/
def mkMakeScript (t : String) : Script :=
  { name := "make:" ++ t, command := "make " ++ t,
    description := some ("Run make " ++ t) }

/-- `GoDetector.parseMakefile` on the file's lines. -/
def parseMakefile (lines : List String) : List Script :=
  (makefileTargets lines).map mkMakeScript

/-- Is this line the `tasks:` block header (`/^tasks:\s*\n/`)? -/
def isTasksHeader (cs : List Char) : Bool :=
  cs.take 6 = "tasks:".data && (cs.drop 6).all isWsChar

/-- The lines after the first `tasks:` header, or `none` without one. -/
def taskfileBlock : List (List Char) → Option (List (List Char))
  | [] => none
  | l :: ls => if isTasksHeader l then some ls else taskfileBlock ls

/-- Split a character run at its last `:`; `none` when it has no `:`.
This realises the greedy match of `([a-zA-Z][a-zA-Z0-9_:-]*)` followed by
a literal `:`, since `:` itself belongs to the class. -/
def splitAtLastColon : List Char → Option (List Char)
  | [] => none
  | c :: rest =>
    match splitAtLastColon rest with
    | some p => some (c :: p)
    | none => if c == ':' then some [] else none

/-- The match of `/^ {2}([a-zA-Z][a-zA-Z0-9_:-]*):/` on one line: a
task name indented by exactly two spaces. -/
def taskEntryOfLine (cs : List Char) : Option String :=
  match cs with
  | ' ' :: ' ' :: rest =>
    match rest with
    | c :: _ =>
      if isAlphaChar c then
        (splitAtLastColon (rest.takeWhile isTaskChar)).map String.mk
      else none
    | [] => none
  | _ => none

/-- Structural keys skipped by `GoDetector.parseTaskfile`. -/
def reservedTaskKeys : List String :=
  ["cmds", "desc", "vars", "env", "deps", "generates", "sources", "dir", "silent"]

/-- The `Script` built for one Taskfile task. -/
def mkTaskScript (t : String) : Script :=
  { name := "task:" ++ t, command := "task " ++ t,
    description := some ("Run task " ++ t) }

/-- `GoDetector.parseTaskfile` on the file's lines. -/
def parseTaskfile (lines : List String) : List Script :=
  match taskfileBlock (lines.map String.data) with
  | none => []
  | some block =>
    (((block.filterMap taskEntryOfLine).filter
        (fun t => !(reservedTaskKeys.contains t))).map mkTaskScript)

/-- `GoDetector.getDefaultGoScripts`. -/
def getDefaultGoScripts : List Script :=
  [ { name := "run", command := "go run .", description := some "Run the main package" },
    { name := "build", command := "go build ./...", description := some "Build all packages" },
    { name := "test", command := "go test ./...", description := some "Run all tests" },
    { name := "test:race", command := "go test -race ./...", description := some "Run tests with race detector" },
    { name := "test:cover", command := "go test -cover ./...", description := some "Run tests with coverage" },
    { name := "vet", command := "go vet ./...", description := some "Run go vet" },
    { name := "tidy", command := "go mod tidy", description := some "Tidy module dependencies" },
    { name := "download", command := "go mod download", description := some "Download module dependencies" },
    { name := "generate", command := "go generate ./...", description := some "Run code generation" } ]

/-- The script list assembled by `GoDetector.parse`: Makefile targets
first, Taskfile tasks second, then the built-in toolchain commands whose
names are not already taken, then `.wami.json` overrides when a config
was loaded.  `none` for a file argument means the file does not exist. -/
def goParseScripts (makefileLines taskfileLines : Option (List String))
    (config : Option WamiConfig) : List Script :=
  let makeScripts := match makefileLines with
    | some ls => parseMakefile ls
    | none => []
  let taskScripts := match taskfileLines with
    | some ls => parseTaskfile ls
    | none => []
  let scripts := makeScripts ++ taskScripts
  let existingNames := scripts.map Script.name
  let defaultScripts := getDefaultGoScripts.filter
    (fun s => !(existingNames.contains s.name))
  let scripts := scripts ++ defaultScripts
  match config with
  | some cfg => applyConfig scripts cfg
  | none => scripts

/-! ## Detector registry (src/core/registry.ts) -/

/-- The part of `PackageInfo` the registry records. -/
structure PackageInfoM where
  path : Dir
  name : String
  scripts : List Script
deriving DecidableEq, Repr

/-- An ecosystem detector as the registry sees it.  A thrown exception is
modelled by the outer `Option` being `none`; `detect` returning
`some none` means "no marker found" (the `null` return). -/
structure DetectorModel where
  name : String
  detect : Dir → Option (Option Dir)
  parse : Dir → Option PackageInfoM

/-- The not-found message of `DetectorRegistry.detect`. -/
def noProjectMsg : String :=
  "No supported project found in current directory or parent directories"

/-- Outcome of `DetectorRegistry.detect`: `found` carries the parsed info
and the detector's name, `notFound` the static error message. -/
inductive DetectionOutcome where
  | found (info : PackageInfoM) (detectorName : String)
  | notFound (error : String)
deriving DecidableEq, Repr

/-- `DetectorRegistry.detect`: try each detector in registration order; a
throw in `detect` or `parse` is caught and the loop continues; the first
detector that yields a root and parses successfully wins. -/
def registryDetect (cwd : Dir) : List DetectorModel → DetectionOutcome
  | [] => .notFound noProjectMsg
  | d :: ds =>
    match d.detect cwd with
    | none => registryDetect cwd ds
    | some none => registryDetect cwd ds
    | some (some projectRoot) =>
      match d.parse projectRoot with
      | some info => .found info d.name
      | none => registryDetect cwd ds

/-- One entry of the `detectAll` result, keeping the resolved project
root it was deduplicated by. -/
structure DetectionEntry where
  root : Dir
  detectorName : String
  info : PackageInfoM
deriving DecidableEq, Repr

/-- The mutable state of `detectAll`: the `scannedPaths` set of resolved
roots and the accumulated `projects` list. -/
structure ScanState where
  scannedPaths : List Dir
  projects : List DetectionEntry

/-- The detector loop of `detectAll`'s `tryDetect` helper: on a resolved
root already in `scannedPaths` it breaks; otherwise it records the root,
parses (a throw falls through to the next detector, the root staying
recorded) and pushes the result. -/
def tryDetectGo (st : ScanState) (p : Dir) : List DetectorModel → ScanState
  | [] => st
  | d :: ds =>
    match d.detect p with
    | none => tryDetectGo st p ds
    | some none => tryDetectGo st p ds
    | some (some projectRoot) =>
      if st.scannedPaths.contains projectRoot then st
      else
        let st' : ScanState :=
          { scannedPaths := projectRoot :: st.scannedPaths, projects := st.projects }
        match d.parse projectRoot with
        | some info =>
          { scannedPaths := st'.scannedPaths,
            projects := st'.projects ++ [⟨projectRoot, d.name, info⟩] }
        | none => tryDetectGo st' p ds

/-- `DetectorRegistry.detectAll`, abstracted over the sequence of
directories it probes: the concrete sequence (current directory, then
each sibling, then children up to depth 2) is produced by `fs.readdir`
calls; the dedup invariant holds for every probe sequence, so the scan
is modelled over an arbitrary one. -/
def detectAllScan (detectors : List DetectorModel) (paths : List Dir) :
    List DetectionEntry :=
  (paths.foldl (fun st p => tryDetectGo st p detectors) ⟨[], []⟩).projects

/-! ## Lemmas about the filesystem probe -/

theorem findFileUpwards_eq_some (fsHas : Dir → String → Bool) (f : String) :
    ∀ (cwd : Dir) (d : Nat), d ≤ cwd.length →
      fsHas (cwd.drop d) f = true →
      (∀ i, i < d → fsHas (cwd.drop i) f = false) →
      findFileUpwards fsHas cwd f = some (cwd.drop d) ∧
        findFileUpwardsChecks fsHas cwd f = d + 1 := by
  intro cwd
  induction cwd with
  | nil =>
    intro d hd hf _
    have hd0 : d = 0 := Nat.le_zero.mp hd
    subst hd0
    simp only [List.drop_nil] at hf
    simp [findFileUpwards, findFileUpwardsChecks, hf]
  | cons c rest ih =>
    intro d hd hf hn
    cases d with
    | zero =>
      simp only [List.drop_zero] at hf
      simp [findFileUpwards, findFileUpwardsChecks, hf]
    | succ d' =>
      have h0 : fsHas (c :: rest) f = false := by
        have := hn 0 (Nat.succ_pos d')
        simpa using this
      have hd' : d' ≤ rest.length := by
        simpa using Nat.le_of_succ_le_succ hd
      have hf' : fsHas (rest.drop d') f = true := by
        simpa using hf
      have hn' : ∀ i, i < d' → fsHas (rest.drop i) f = false := by
        intro i hi
        have := hn (i + 1) (by omega)
        simpa using this
      obtain ⟨ha, hb⟩ := ih d' hd' hf' hn'
      constructor
      · simpa [findFileUpwards, h0] using ha
      · simp only [findFileUpwardsChecks, h0, Bool.false_eq_true, if_false, hb]
        omega

theorem findFileUpwards_eq_none (fsHas : Dir → String → Bool) (f : String) :
    ∀ cwd : Dir, (∀ d, d ≤ cwd.length → fsHas (cwd.drop d) f = false) →
      findFileUpwards fsHas cwd f = none := by
  intro cwd
  induction cwd with
  | nil =>
    intro h
    have := h 0 (Nat.le_refl 0)
    simp only [List.drop_nil] at this
    simp [findFileUpwards, this]
  | cons c rest ih =>
    intro h
    have h0 : fsHas (c :: rest) f = false := by simpa using h 0 (by omega)
    have hrest : findFileUpwards fsHas rest f = none := by
      apply ih
      intro d hd
      have := h (d + 1) (by simpa using Nat.succ_le_succ hd)
      simpa using this
    simp [findFileUpwards, h0, hrest]

/-! ## Claim theorems -/

/-- C4: the upward probe visits the starting directory and each
successive parent up to the filesystem root; when the target first
exists at depth `d`, exactly that ancestor is returned after `d + 1`
existence checks, and when no ancestor (root included) contains the
file the probe returns `none` instead of failing. -/
theorem findFileUpwards_spec (fsHas : Dir → String → Bool) (cwd : Dir) (f : String) :
    (∀ d : Nat, d ≤ cwd.length →
      fsHas (cwd.drop d) f = true →
      (∀ i, i < d → fsHas (cwd.drop i) f = false) →
      findFileUpwards fsHas cwd f = some (cwd.drop d) ∧
        findFileUpwardsChecks fsHas cwd f = d + 1) ∧
    ((∀ d, d ≤ cwd.length → fsHas (cwd.drop d) f = false) →
      findFileUpwards fsHas cwd f = none) :=
  ⟨fun d hd hf hn => findFileUpwards_eq_some fsHas f cwd d hd hf hn,
   fun h => findFileUpwards_eq_none fsHas f cwd h⟩

/-- Witness for C4: in `/a/b` (leaf-first `["b", "a"]`-style chain) with
the marker one level up, the probe returns that ancestor after two
checks, and a probe for an absent file returns `none`. -/
theorem findFileUpwards_spec_witness :
    (findFileUpwards
        (fun d file => d == ["b"] && file == "package.json")
        ["a", "b"] "package.json" = some ["b"] ∧
      findFileUpwardsChecks
        (fun d file => d == ["b"] && file == "package.json")
        ["a", "b"] "package.json" = 2) ∧
    findFileUpwards
      (fun d file => d == ["b"] && file == "package.json")
      ["a", "b"] "go.mod" = none := by
  constructor
  · exact (findFileUpwards_spec
        (fun d file => d == ["b"] && file == "package.json")
        ["a", "b"] "package.json").1 1 (by decide) (by decide)
      (by decide)
  · exact (findFileUpwards_spec
        (fun d file => d == ["b"] && file == "package.json")
        ["a", "b"] "go.mod").2 (by decide)

/-- C3: the resolved Node.js package manager is the first of
bun, pnpm, yarn, npm whose lock file exists in the project root, with
npm as the fallback when no lock file exists at all. -/
theorem detectPackageManager_priority (fileInRoot : String → Bool) :
    detectPackageManager fileInRoot =
      if fileInRoot "bun.lockb" || fileInRoot "bun.lock" then "bun"
      else if fileInRoot "pnpm-lock.yaml" then "pnpm"
      else if fileInRoot "yarn.lock" then "yarn"
      else "npm" := by
  unfold detectPackageManager NODE_PACKAGE_MANAGERS bun pnpm yarn npm
  cases h1 : fileInRoot "bun.lockb" <;> cases h2 : fileInRoot "bun.lock" <;>
    cases h3 : fileInRoot "pnpm-lock.yaml" <;> cases h4 : fileInRoot "yarn.lock" <;>
    cases h5 : fileInRoot "package-lock.json" <;>
    simp [List.find?, h1, h2, h3, h4, h5]

/-- C10: the Python detector searches the whole ancestor chain for
`pyproject.toml` before trying the other markers, so the nearest
`pyproject.toml` ancestor is returned even when a nearer directory
contains a `Pipfile` or `requirements.txt`. -/
theorem pythonDetect_pyproject_first (fsHas : Dir → String → Bool) (cwd : Dir)
    (d : Nat) (hd : d ≤ cwd.length)
    (hf : fsHas (cwd.drop d) "pyproject.toml" = true)
    (hn : ∀ i, i < d → fsHas (cwd.drop i) "pyproject.toml" = false) :
    pythonDetect fsHas cwd = some (cwd.drop d) := by
  have h := (findFileUpwards_eq_some fsHas "pyproject.toml" cwd d hd hf hn).1
  simp [pythonDetect, h]

/-! ## Lemmas about the override layer -/

theorem scriptOfConfig_name (n : String) (c : CmdConfig) :
    (scriptOfConfig n c).name = n := by
  cases c <;> rfl

theorem applyOverride_cons (s : Script) (l : List Script) (e : String × CmdConfig) :
    applyOverride (s :: l) e =
      if s.name == e.1 then scriptOfConfig e.1 e.2 :: l
      else s :: applyOverride l e := by
  cases hp : s.name == e.1 with
  | true => simp [applyOverride, findIndex, hp]
  | false =>
    cases hfi : findIndex (fun x => x.name == e.1) l with
    | none => simp [applyOverride, findIndex, hp, hfi]
    | some i => simp [applyOverride, findIndex, hp, hfi]

theorem applyOverride_nil (e : String × CmdConfig) :
    applyOverride [] e = [scriptOfConfig e.1 e.2] := rfl

theorem mem_name_applyOverride {n : String} (l : List Script)
    (e : String × CmdConfig) (hne : n ≠ e.1) :
    n ∈ (applyOverride l e).map Script.name ↔ n ∈ l.map Script.name := by
  induction l with
  | nil =>
    rw [applyOverride_nil]
    simp [scriptOfConfig_name, hne]
  | cons s l ih =>
    rw [applyOverride_cons]
    cases hp : s.name == e.1 with
    | true =>
      have hs : s.name = e.1 := by simpa using hp
      simp [scriptOfConfig_name, hs, hne]
    | false => simp [ih]

theorem mem_applyOverride_self (l : List Script) (n : String) (c : CmdConfig) :
    scriptOfConfig n c ∈ applyOverride l (n, c) := by
  induction l with
  | nil => rw [applyOverride_nil]; exact List.mem_singleton.mpr rfl
  | cons s l ih =>
    rw [applyOverride_cons]
    cases hp : s.name == n with
    | true => simp [hp]
    | false => simpa [hp] using List.mem_cons_of_mem s ih

theorem mem_applyOverride_of_mem {x : Script} (l : List Script)
    (e : String × CmdConfig) (hx : x ∈ l) (hne : x.name ≠ e.1) :
    x ∈ applyOverride l e := by
  induction l with
  | nil => cases hx
  | cons s l ih =>
    rw [applyOverride_cons]
    rcases List.mem_cons.mp hx with rfl | hx'
    · have hp : (x.name == e.1) = false := by simpa using hne
      simp [hp]
    · cases hp : s.name == e.1 with
      | true => simp [hp, hx']
      | false => simpa [hp] using Or.inr (ih hx')

theorem foldl_applyOverride_preserves (entries : List (String × CmdConfig)) :
    ∀ (init : List Script) (x : Script), x ∈ init →
      (∀ e ∈ entries, e.1 ≠ x.name) →
      x ∈ entries.foldl applyOverride init := by
  induction entries with
  | nil => intro init x hx _; simpa using hx
  | cons e es ih =>
    intro init x hx hk
    simp only [List.foldl_cons]
    exact ih _ x
      (mem_applyOverride_of_mem init e hx (fun h => hk e (List.mem_cons_self e es) h.symm))
      (fun e' he' => hk e' (List.mem_cons_of_mem e he'))

theorem foldl_applyOverride_not_mem (entries : List (String × CmdConfig)) :
    ∀ (init : List Script) (n : String), n ∉ init.map Script.name →
      (∀ e ∈ entries, e.1 ≠ n) →
      n ∉ (entries.foldl applyOverride init).map Script.name := by
  induction entries with
  | nil => intro init n h _; simpa using h
  | cons e es ih =>
    intro init n h hk
    simp only [List.foldl_cons]
    apply ih
    · intro hmem
      exact h ((mem_name_applyOverride init e
        (fun heq => hk e (List.mem_cons_self e es) heq.symm)).mp hmem)
    · intro e' he'
      exact hk e' (List.mem_cons_of_mem e he')

theorem foldl_applyOverride_mem (entries : List (String × CmdConfig)) :
    ∀ (init : List Script) (n : String) (c : CmdConfig),
      (n, c) ∈ entries → (entries.map Prod.fst).Nodup →
      scriptOfConfig n c ∈ entries.foldl applyOverride init := by
  induction entries with
  | nil => intro _ _ _ h _; cases h
  | cons e es ih =>
    intro init n c hmem hnd
    simp only [List.foldl_cons]
    rcases List.mem_cons.mp hmem with heq | hmem'
    · subst heq
      apply foldl_applyOverride_preserves es _ _ (mem_applyOverride_self init n c)
      intro e' he'
      rw [scriptOfConfig_name]
      have hn : n ∉ es.map Prod.fst := by
        simpa using (List.nodup_cons.mp hnd).1
      intro hcontra
      exact hn (hcontra ▸ List.mem_map_of_mem Prod.fst he')
    · exact ih _ n c hmem' (List.nodup_cons.mp hnd).2

theorem applyOverride_replace (l₁ l₂ : List Script) (s : Script) (n : String)
    (c : CmdConfig) (hs : s.name = n) (hn : n ∉ l₁.map Script.name) :
    applyOverride (l₁ ++ s :: l₂) (n, c) = l₁ ++ scriptOfConfig n c :: l₂ := by
  induction l₁ with
  | nil =>
    rw [List.nil_append, applyOverride_cons]
    have hp : (s.name == n) = true := by simpa using hs
    simp [hp]
  | cons a l₁ ih =>
    rw [List.cons_append, applyOverride_cons]
    have ha : (a.name == n) = false := by
      simp only [List.map_cons, List.mem_cons] at hn
      simpa using fun h => hn (Or.inl h.symm)
    have hn' : n ∉ l₁.map Script.name := by
      simp only [List.map_cons, List.mem_cons] at hn
      exact fun h => hn (Or.inr h)
    simp [ha, ih hn']

theorem applyOverride_append (l : List Script) (n : String) (c : CmdConfig)
    (hn : n ∉ l.map Script.name) :
    applyOverride l (n, c) = l ++ [scriptOfConfig n c] := by
  induction l with
  | nil => rw [applyOverride_nil]; rfl
  | cons a l ih =>
    rw [applyOverride_cons]
    have ha : (a.name == n) = false := by
      simp only [List.map_cons, List.mem_cons] at hn
      simpa using fun h => hn (Or.inl h.symm)
    have hn' : n ∉ l.map Script.name := by
      simp only [List.map_cons, List.mem_cons] at hn
      exact fun h => hn (Or.inr h)
    simp [ha, ih hn']

/-- C2: the override layer first removes every command named in the
ignore list, then each `commands` entry either replaces the first
surviving same-named entry in place (position preserved, shown by the
`applyOverride_replace` conjunct) or is appended at the end; an entry
of the `commands` map always ends up in the final list with its
overriding command — in particular also when its name is ignored. -/
theorem applyConfig_spec (scripts : List Script) (config : WamiConfig)
    (hkeys : (config.commands.map Prod.fst).Nodup) :
    (∀ n, n ∈ config.ignore → n ∉ config.commands.map Prod.fst →
      n ∉ (applyConfig scripts config).map Script.name) ∧
    (∀ n c, (n, c) ∈ config.commands →
      scriptOfConfig n c ∈ applyConfig scripts config) ∧
    (∀ (l₁ l₂ : List Script) (s : Script) (n : String) (c : CmdConfig),
      s.name = n → n ∉ l₁.map Script.name →
      applyOverride (l₁ ++ s :: l₂) (n, c) = l₁ ++ scriptOfConfig n c :: l₂) ∧
    (∀ (l : List Script) (n : String) (c : CmdConfig),
      n ∉ l.map Script.name →
      applyOverride l (n, c) = l ++ [scriptOfConfig n c]) := by
  refine ⟨?_, ?_, ?_, ?_⟩
  · intro n hn hnk
    apply foldl_applyOverride_not_mem
    · intro hmem
      rcases List.mem_map.mp hmem with ⟨s, hs, hname⟩
      rcases List.mem_filter.mp hs with ⟨_, hkeep⟩
      rw [hname] at hkeep
      simp [hn] at hkeep
    · intro e he heq
      exact hnk (heq ▸ List.mem_map_of_mem Prod.fst he)
  · intro n c hmem
    exact foldl_applyOverride_mem config.commands _ n c hmem hkeys
  · exact fun l₁ l₂ s n c => applyOverride_replace l₁ l₂ s n c
  · exact fun l n c => applyOverride_append l n c

/-- Witness for C2 (spec scenario 3): ignoring `test` and overriding it
with `pytest -x` in the same config leaves `test` present with the
overriding command. -/
theorem applyConfig_spec_witness :
    scriptOfConfig "test" (CmdConfig.str "pytest -x") ∈
      applyConfig
        [ { name := "test", command := "poetry run pytest" },
          { name := "install", command := "poetry install" } ]
        { commands := [("test", CmdConfig.str "pytest -x")], ignore := ["test"] } :=
  (applyConfig_spec
    [ { name := "test", command := "poetry run pytest" },
      { name := "install", command := "poetry install" } ]
    { commands := [("test", CmdConfig.str "pytest -x")], ignore := ["test"] }
    (by decide)).2.1 "test" (CmdConfig.str "pytest -x") (by decide)

/-- Witness for C10: `pyproject.toml` exists one level above the start
while the starting directory itself holds both a `Pipfile` and a
`requirements.txt`; the probe still returns the `pyproject.toml`
ancestor. -/
theorem pythonDetect_pyproject_first_witness :
    pythonDetect
      (fun d file =>
        (d == ["proj"] && file == "pyproject.toml") ||
        (d == ["pkg", "proj"] && (file == "Pipfile" || file == "requirements.txt")))
      ["pkg", "proj"] = some ["proj"] :=
  pythonDetect_pyproject_first
    (fun d file =>
      (d == ["proj"] && file == "pyproject.toml") ||
      (d == ["pkg", "proj"] && (file == "Pipfile" || file == "requirements.txt")))
    ["pkg", "proj"] 1 (by decide) (by decide) (by decide)

/-- C1 counterexample: a Node.js project resolved to pnpm whose stored
`build` command is already of the `<tool> run <x>` form.  `buildCommand`
does not return the stored string unchanged — it rebuilds `pnpm build`
from the script name alone. -/
theorem buildCommand_returns_stored_cex :
    strIncludes "pnpm run build" "pnpm" = true ∧
    nodeBuildCommand
      { packageManager := "pnpm",
        scripts := [{ name := "build", command := "pnpm run build" }] }
      "build" = "pnpm build" ∧
    ("pnpm build" : String) ≠ "pnpm run build" :=
  ⟨by decide, by decide, by decide⟩

/-- C1 amended: the Python detector's `buildCommand` returns a found
script's stored command unchanged whenever it already contains the
resolved package manager's name (in particular any `<manager> run <x>`
string), never wrapping it a second time; the Node.js detector's
`buildCommand` never consults stored command strings at all — it
formats from the script name only, so it cannot double-wrap either,
but it does not return the stored string. -/
theorem buildCommand_no_double_wrap :
    (∀ (manager : String) (scripts : List Script) (scriptName : String) (s : Script),
      scripts.find? (fun x => x.name == scriptName) = some s →
      strIncludes s.command manager = true →
      pythonBuildCommand manager scripts scriptName = s.command) ∧
    (∀ (pm : String) (scripts scripts' : List Script) (scriptName : String),
      nodeBuildCommand ⟨pm, scripts⟩ scriptName =
        nodeBuildCommand ⟨pm, scripts'⟩ scriptName) := by
  constructor
  · intro manager scripts scriptName s hfind hincl
    simp [pythonBuildCommand, hfind, hincl]
  · intro pm scripts scripts' scriptName
    rfl

/-- Witness for C1 (amended): a poetry project whose `serve` script is
stored as `poetry run app:main` gets exactly that string back. -/
theorem buildCommand_no_double_wrap_witness :
    pythonBuildCommand "poetry"
      [{ name := "serve", command := "poetry run app:main" }] "serve" =
      "poetry run app:main" :=
  buildCommand_no_double_wrap.1 "poetry"
    [{ name := "serve", command := "poetry run app:main" }] "serve"
    { name := "serve", command := "poetry run app:main" }
    (by decide) (by decide)

/-- C8: a detector that throws in `detect`, or yields a root whose
`parse` throws, is skipped and iteration continues with the next
detector; when no detector yields a root the registry returns the
static not-found message instead of raising. -/
theorem registryDetect_spec (cwd : Dir) :
    (∀ (d : DetectorModel) (ds : List DetectorModel),
      (d.detect cwd = none ∨
        ∃ r, d.detect cwd = some (some r) ∧ d.parse r = none) →
      registryDetect cwd (d :: ds) = registryDetect cwd ds) ∧
    (∀ ds : List DetectorModel,
      (∀ d ∈ ds, d.detect cwd = none ∨ d.detect cwd = some none) →
      registryDetect cwd ds = .notFound noProjectMsg) := by
  constructor
  · intro d ds h
    rcases h with h | ⟨r, h1, h2⟩
    · simp [registryDetect, h]
    · simp [registryDetect, h1, h2]
  · intro ds
    induction ds with
    | nil => intro _; rfl
    | cons d ds ih =>
      intro h
      have hrest := ih (fun d' hd' => h d' (List.mem_cons_of_mem d hd'))
      rcases h d (List.mem_cons_self d ds) with h1 | h1 <;>
        simp [registryDetect, h1, hrest]

/-- Witness for C8: of two registered detectors, the first throws in
`detect` and the second finds no marker; the outcome is the static
not-found result. -/
theorem registryDetect_spec_witness :
    registryDetect ["app"]
      [ { name := "Python", detect := fun _ => none, parse := fun _ => none },
        { name := "Node.js", detect := fun _ => some none, parse := fun _ => none } ] =
      .notFound noProjectMsg := by
  apply (registryDetect_spec ["app"]).2
  intro d hd
  rcases List.mem_cons.mp hd with rfl | hd'
  · exact Or.inl rfl
  · rcases List.mem_singleton.mp hd' with rfl
    exact Or.inr rfl

/-! ## Lemmas about the multi-project scan -/

theorem tryDetectGo_cons (st : ScanState) (p : Dir) (d : DetectorModel)
    (ds : List DetectorModel) :
    tryDetectGo st p (d :: ds) =
      match d.detect p with
      | none => tryDetectGo st p ds
      | some none => tryDetectGo st p ds
      | some (some root) =>
        if st.scannedPaths.contains root then st
        else
          match d.parse root with
          | some info =>
            { scannedPaths := root :: st.scannedPaths,
              projects := st.projects ++ [⟨root, d.name, info⟩] }
          | none =>
            tryDetectGo
              { scannedPaths := root :: st.scannedPaths, projects := st.projects }
              p ds := rfl

theorem tryDetectGo_inv (p : Dir) :
    ∀ (ds : List DetectorModel) (st : ScanState),
      (st.projects.map DetectionEntry.root).Nodup →
      (∀ e ∈ st.projects, e.root ∈ st.scannedPaths) →
      ((tryDetectGo st p ds).projects.map DetectionEntry.root).Nodup ∧
        ∀ e ∈ (tryDetectGo st p ds).projects,
          e.root ∈ (tryDetectGo st p ds).scannedPaths := by
  intro ds
  induction ds with
  | nil => exact fun st h1 h2 => ⟨h1, h2⟩
  | cons d ds ih =>
    intro st h1 h2
    rw [tryDetectGo_cons]
    cases hdet : d.detect p with
    | none => exact ih st h1 h2
    | some o =>
      cases o with
      | none => exact ih st h1 h2
      | some root =>
        simp only
        cases hc : st.scannedPaths.contains root with
        | true => simp only [if_pos rfl]; exact ⟨h1, h2⟩
        | false =>
          simp only [Bool.false_eq_true, if_false]
          have hroot : root ∉ st.scannedPaths := by
            simpa using hc
          cases hp : d.parse root with
          | some info =>
            refine ⟨?_, ?_⟩
            · rw [List.map_append]
              rw [List.nodup_append]
              refine ⟨h1, List.nodup_singleton _, ?_⟩
              intro x hx hx'
              rcases List.mem_map.mp hx with ⟨e, he, hex⟩
              rcases List.mem_singleton.mp (by simpa using hx') with rfl
              exact hroot (hex ▸ h2 e he)
            · intro e he
              rcases List.mem_append.mp he with he | he
              · exact List.mem_cons_of_mem root (h2 e he)
              · rcases List.mem_singleton.mp he with rfl
                exact List.mem_cons_self root _
          | none =>
            exact ih _ h1 (fun e he => List.mem_cons_of_mem root (h2 e he))

/-- C6: `detectAll` never returns two entries with the same resolved
project root, whatever sequence of directories the current-directory
probe, the sibling scan and the child recursion feed it. -/
theorem detectAllScan_nodup_roots (detectors : List DetectorModel)
    (paths : List Dir) :
    ((detectAllScan detectors paths).map DetectionEntry.root).Nodup := by
  suffices h : ∀ (ps : List Dir) (st : ScanState),
      (st.projects.map DetectionEntry.root).Nodup →
      (∀ e ∈ st.projects, e.root ∈ st.scannedPaths) →
      (((ps.foldl (fun st p => tryDetectGo st p detectors) st).projects.map
          DetectionEntry.root).Nodup ∧
        ∀ e ∈ (ps.foldl (fun st p => tryDetectGo st p detectors) st).projects,
          e.root ∈ (ps.foldl (fun st p => tryDetectGo st p detectors) st).scannedPaths) by
    exact (h paths ⟨[], []⟩ List.nodup_nil (by intro e he; cases he)).1
  intro ps
  induction ps with
  | nil => exact fun st h1 h2 => ⟨h1, h2⟩
  | cons p ps ih =>
    intro st h1 h2
    simp only [List.foldl_cons]
    obtain ⟨h1', h2'⟩ := tryDetectGo_inv p detectors st h1 h2
    exact ih _ h1' h2'

/-- C7 counterexample: a poetry manifest declaring a script named
`install` makes `PythonDetector.parse` produce a list containing TWO
entries named `install` — the manifest one and the appended poetry
built-in — so the final list (no `.wami.json` present, hence the
override layer leaves it unchanged) does not have unique names. -/
theorem parse_unique_names_cex :
    ¬ ((pythonParseScripts
        (some { toolPoetry := some { scripts := some [("install", "app:install")] } })
        none false "proj" false false false [] [] none).map Script.name).Nodup := by
  decide

theorem extractScripts_names (entries : List (String × String)) :
    (nodeExtractScripts (some entries)).map Script.name = entries.map Prod.fst := by
  simp only [nodeExtractScripts, List.map_map]
  rfl

theorem mem_uniqueToolFilter {t : Script} (scripts tools : List Script) :
    t ∈ uniqueToolFilter scripts tools ↔
      t ∈ tools ∧ t.name ∉ scripts.map Script.name := by
  unfold uniqueToolFilter
  rw [List.mem_filter]
  simp

/-- C7 amended: tool-inference contributions whose name is already taken
are dropped in favor of the earlier manifest- or task-runner-declared
command (second conjunct), and the Node.js parse result has unique names
whenever the manifest script keys and the tool contributions are each
duplicate-free (first conjunct); full uniqueness of the Python parse
result does not hold because the appended package-manager built-ins are
not deduplicated against same-named manifest scripts. -/
theorem parse_unique_names (entries : List (String × String)) (tools : List Script)
    (hentries : (entries.map Prod.fst).Nodup)
    (htools : (tools.map Script.name).Nodup) :
    ((nodeParseScripts (some entries) tools).map Script.name).Nodup ∧
    (∀ (scripts ts : List Script) (t : Script), t ∈ ts →
      t.name ∈ scripts.map Script.name → t ∉ uniqueToolFilter scripts ts) := by
  constructor
  · show (((nodeExtractScripts (some entries)) ++
      uniqueToolFilter (nodeExtractScripts (some entries)) tools).map Script.name).Nodup
    rw [List.map_append, List.nodup_append]
    refine ⟨?_, ?_, ?_⟩
    · rw [extractScripts_names]; exact hentries
    · exact ((List.filter_sublist tools).map Script.name).nodup htools
    · intro x hx hx'
      rcases List.mem_map.mp hx' with ⟨t, ht, htx⟩
      rcases (mem_uniqueToolFilter _ tools).mp ht with ⟨_, hname⟩
      exact hname (htx ▸ hx)
  · intro scripts ts t hts hname hmem
    exact ((mem_uniqueToolFilter scripts ts).mp hmem).2 hname

/-- Witness for C7 (amended): a manifest with scripts `build`, `lint`
plus a tool contribution named `build` yields unique names, the
duplicate tool entry being dropped. -/
theorem parse_unique_names_witness :
    ((nodeParseScripts (some [("build", "tsc"), ("lint", "eslint .")])
        [{ name := "build", command := "vite build" }]).map Script.name).Nodup ∧
    { name := "build", command := "vite build" } ∉
      uniqueToolFilter [{ name := "build", command := "tsc" }]
        [{ name := "build", command := "vite build" }] := by
  have h := parse_unique_names [("build", "tsc"), ("lint", "eslint .")]
    [{ name := "build", command := "vite build" }] (by decide) (by decide)
  exact ⟨h.1, h.2 [{ name := "build", command := "tsc" }]
    [{ name := "build", command := "vite build" }]
    { name := "build", command := "vite build" } (by decide) (by decide)⟩

/-! ## Lemmas about workspace resolution -/

theorem findAllFilesUpwards_suffix (fsHas : Dir → String → Bool) (f : String) :
    ∀ (cwd : Dir) (d : Dir), d ∈ findAllFilesUpwards fsHas cwd f → d <:+ cwd := by
  intro cwd
  induction cwd with
  | nil =>
    intro d hd
    simp only [findAllFilesUpwards] at hd
    split at hd
    · rcases List.mem_singleton.mp hd with rfl
      exact List.suffix_refl []
    · cases hd
  | cons c rest ih =>
    intro d hd
    simp only [findAllFilesUpwards, List.mem_append] at hd
    rcases hd with hd | hd
    · split at hd
      · rcases List.mem_singleton.mp hd with rfl
        exact List.suffix_refl _
      · cases hd
    · exact (ih d hd).trans (List.suffix_cons c rest)

theorem findAllFilesUpwards_pairwise (fsHas : Dir → String → Bool) (f : String) :
    ∀ cwd : Dir,
      (findAllFilesUpwards fsHas cwd f).Pairwise (fun a b => b.length < a.length) := by
  intro cwd
  induction cwd with
  | nil =>
    simp only [findAllFilesUpwards]
    split <;> simp
  | cons c rest ih =>
    simp only [findAllFilesUpwards]
    rw [List.pairwise_append]
    refine ⟨?_, ih, ?_⟩
    · split <;> simp
    · intro a ha b hb
      have hsub := findAllFilesUpwards_suffix fsHas f rest b hb
      have hlen : b.length ≤ rest.length := hsub.length_le
      split at ha
      · rcases List.mem_singleton.mp ha with rfl
        simp only [List.length_cons]
        omega
      · cases ha

theorem isSuffix_of_length_le {p q r : Dir} (hp : p <:+ r) (hq : q <:+ r)
    (hlen : p.length ≤ q.length) : p <:+ q := by
  obtain ⟨a, rfl⟩ := hp
  obtain ⟨b, hb⟩ := hq
  have hblen : b.length ≤ a.length := by
    have := congrArg List.length hb
    simp only [List.length_append] at this
    omega
  refine ⟨a.drop b.length, ?_⟩
  have h2 : (b ++ q).drop b.length = q := List.drop_left b q
  rw [← h2, hb, List.drop_append_of_le_length hblen]

theorem relativeTo_reverse_append {parent current : Dir} (h : parent <:+ current) :
    (relativeTo parent current).reverse ++ parent = current := by
  obtain ⟨t, ht⟩ := h
  subst ht
  unfold relativeTo
  rw [List.length_append, Nat.add_sub_cancel, List.take_left, List.reverse_reverse]

/-- C5: with at most one manifest directory in the ancestor chain there
is no Workspace Info; otherwise the parents are scanned from the
second-nearest outward and the first one declaring `workspaces` becomes
the workspace root; whenever Workspace Info is produced its
`workspaceRoot` is a strict ancestor of the project root and its
`relativePath` is exactly the path leading from the workspace root back
down to the nearest manifest directory. -/
theorem detectWorkspace_spec (fsHas : Dir → String → Bool)
    (manifest : Dir → PackageJson) (root current : Dir) (parents : List Dir)
    (h : findAllFilesUpwards fsHas root "package.json" = current :: parents) :
    (parents = [] → detectWorkspace fsHas manifest root = none) ∧
    detectWorkspace fsHas manifest root =
      (if parents.isEmpty then none
       else (parents.find? (fun p => (manifest p).workspaces.isSome)).map
         (fun parentRoot =>
           { isWorkspace := true
             workspaceRoot := parentRoot
             workspaceName := jsOr (manifest parentRoot).name (basename parentRoot)
             relativePath := relativeTo parentRoot current })) ∧
    (∀ info, detectWorkspace fsHas manifest root = some info →
      info.workspaceRoot <:+ root ∧ info.workspaceRoot.length < root.length ∧
      info.relativePath = relativeTo info.workspaceRoot current ∧
      info.relativePath.reverse ++ info.workspaceRoot = current) := by
  have hchar : detectWorkspace fsHas manifest root =
      (if parents.isEmpty then none
       else (parents.find? (fun p => (manifest p).workspaces.isSome)).map
         (fun parentRoot =>
           { isWorkspace := true
             workspaceRoot := parentRoot
             workspaceName := jsOr (manifest parentRoot).name (basename parentRoot)
             relativePath := relativeTo parentRoot current })) := by
    unfold detectWorkspace
    rw [h]
    cases parents with
    | nil => simp
    | cons p ps => simp [Nat.succ_le_succ_iff]
  refine ⟨fun hp => by simp [hchar, hp], hchar, ?_⟩
  intro info hinfo
  rw [hchar] at hinfo
  cases hps : parents.isEmpty with
  | true => rw [hps] at hinfo; simp at hinfo
  | false =>
    rw [hps] at hinfo
    simp only [Bool.false_eq_true, if_false] at hinfo
    rcases Option.map_eq_some'.mp hinfo with ⟨pr, hfind, hrec⟩
    have hprmem : pr ∈ parents := List.mem_of_find?_eq_some hfind
    have hcur_suffix : current <:+ root :=
      findAllFilesUpwards_suffix fsHas "package.json" root current
        (h ▸ List.mem_cons_self current parents)
    have hpr_suffix : pr <:+ root :=
      findAllFilesUpwards_suffix fsHas "package.json" root pr
        (h ▸ List.mem_cons_of_mem current hprmem)
    have hpw := findAllFilesUpwards_pairwise fsHas "package.json" root
    rw [h] at hpw
    have hlt : pr.length < current.length :=
      (List.pairwise_cons.mp hpw).1 pr hprmem
    have hcl : current.length ≤ root.length := hcur_suffix.length_le
    have hpc : pr <:+ current :=
      isSuffix_of_length_le hpr_suffix hcur_suffix (Nat.le_of_lt hlt)
    subst hrec
    exact ⟨hpr_suffix, show pr.length < root.length by omega, rfl,
      relativeTo_reverse_append hpc⟩

/-- Witness for C5: in `/ws/packages/app` with manifests at the start
directory and at `/ws` (which declares `workspaces`), the resolver
reports `/ws` as workspace root and `packages/app` as relative path. -/
theorem detectWorkspace_spec_witness :
    detectWorkspace
      (fun d file =>
        file == "package.json" && (d == ["app", "packages", "ws"] || d == ["ws"]))
      (fun d =>
        if d == ["ws"] then { name := some "ws-root", workspaces := some ["packages/*"] }
        else {})
      ["app", "packages", "ws"] =
      some { isWorkspace := true, workspaceRoot := ["ws"],
             workspaceName := "ws-root", relativePath := ["packages", "app"] } := by
  rw [(detectWorkspace_spec
    (fun d file =>
      file == "package.json" && (d == ["app", "packages", "ws"] || d == ["ws"]))
    (fun d =>
      if d == ["ws"] then { name := some "ws-root", workspaces := some ["packages/*"] }
      else {})
    ["app", "packages", "ws"] ["app", "packages", "ws"] [["ws"]] (by decide)).2.1]
  decide

/-! ## Lemmas about the Go detector -/

theorem mem_addTarget {x t : String} (acc : List String) :
    x ∈ addTarget acc t ↔ x ∈ acc ∨ x = t := by
  unfold addTarget
  split
  · rename_i hc
    have ht : t ∈ acc := by simpa using hc
    constructor
    · exact Or.inl
    · rintro (h | rfl)
      · exact h
      · exact ht
  · simp

theorem addTarget_nodup {acc : List String} (t : String) (h : acc.Nodup) :
    (addTarget acc t).Nodup := by
  unfold addTarget
  split
  · exact h
  · rename_i hc
    have ht : t ∉ acc := by simpa using hc
    rw [List.nodup_append]
    exact ⟨h, List.nodup_singleton t, fun x hx hx' =>
      ht ((List.mem_singleton.mp hx') ▸ hx)⟩

theorem foldl_addTarget_nodup (ts : List String) :
    ∀ acc : List String, acc.Nodup → (ts.foldl addTarget acc).Nodup := by
  induction ts with
  | nil => exact fun _ h => h
  | cons t ts ih => exact fun acc h => ih _ (addTarget_nodup t h)

theorem mem_foldl_addTarget (ts : List String) :
    ∀ (acc : List String) (x : String),
      x ∈ ts.foldl addTarget acc ↔ x ∈ acc ∨ x ∈ ts := by
  induction ts with
  | nil => simp
  | cons t ts ih =>
    intro acc x
    simp only [List.foldl_cons, ih, mem_addTarget, List.mem_cons]
    tauto

theorem phonyFold_nodup (lines : List String) :
    ∀ acc : List String, acc.Nodup →
      (lines.foldl (fun acc line =>
        match parsePhonyLine line.data with
        | some ts => ts.foldl addTarget acc
        | none => acc) acc).Nodup := by
  induction lines with
  | nil => exact fun _ h => h
  | cons l ls ih =>
    intro acc h
    simp only [List.foldl_cons]
    cases hp : parsePhonyLine l.data with
    | none => exact ih _ h
    | some ts => exact ih _ (foldl_addTarget_nodup ts acc h)

theorem colonFold_nodup (lines : List String) :
    ∀ acc : List String, acc.Nodup →
      (lines.foldl (fun acc line =>
        match makefileTargetOfLine line.data with
        | some t => addTarget acc t
        | none => acc) acc).Nodup := by
  induction lines with
  | nil => exact fun _ h => h
  | cons l ls ih =>
    intro acc h
    simp only [List.foldl_cons]
    cases hp : makefileTargetOfLine l.data with
    | none => exact ih _ h
    | some t => exact ih _ (addTarget_nodup t h)

theorem mem_phonyFold (lines : List String) :
    ∀ (acc : List String) (x : String),
      x ∈ lines.foldl (fun acc line =>
        match parsePhonyLine line.data with
        | some ts => ts.foldl addTarget acc
        | none => acc) acc ↔
      x ∈ acc ∨ ∃ line ∈ lines, ∃ ts, parsePhonyLine line.data = some ts ∧ x ∈ ts := by
  induction lines with
  | nil => simp
  | cons l ls ih =>
    intro acc x
    simp only [List.foldl_cons, List.mem_cons, exists_eq_or_imp]
    cases hp : parsePhonyLine l.data with
    | none =>
      rw [ih]
      simp
    | some ts =>
      rw [ih, mem_foldl_addTarget]
      simp only [Option.some.injEq]
      constructor
      · rintro ((h | h) | h)
        · exact Or.inl h
        · exact Or.inr (Or.inl ⟨ts, rfl, h⟩)
        · exact Or.inr (Or.inr h)
      · rintro (h | ⟨ts', rfl, h⟩ | h)
        · exact Or.inl (Or.inl h)
        · exact Or.inl (Or.inr h)
        · exact Or.inr h

theorem mem_colonFold (lines : List String) :
    ∀ (acc : List String) (x : String),
      x ∈ lines.foldl (fun acc line =>
        match makefileTargetOfLine line.data with
        | some t => addTarget acc t
        | none => acc) acc ↔
      x ∈ acc ∨ ∃ line ∈ lines, makefileTargetOfLine line.data = some x := by
  induction lines with
  | nil => simp
  | cons l ls ih =>
    intro acc x
    simp only [List.foldl_cons, List.mem_cons, exists_eq_or_imp]
    cases hp : makefileTargetOfLine l.data with
    | none =>
      rw [ih]
      simp
    | some t =>
      rw [ih, mem_addTarget]
      simp only [Option.some.injEq]
      constructor
      · rintro ((h | rfl) | h)
        · exact Or.inl h
        · exact Or.inr (Or.inl rfl)
        · exact Or.inr (Or.inr h)
      · rintro (h | heq | h)
        · exact Or.inl (Or.inl h)
        · exact Or.inl (Or.inr heq.symm)
        · exact Or.inr h

theorem makefileTargets_nodup (lines : List String) :
    (makefileTargets lines).Nodup := by
  unfold makefileTargets
  exact colonFold_nodup lines _ (phonyFold_nodup lines [] List.nodup_nil)

theorem mem_makefileTargets (lines : List String) (t : String) :
    t ∈ makefileTargets lines ↔
      (∃ line ∈ lines, ∃ ts, parsePhonyLine line.data = some ts ∧ t ∈ ts) ∨
      ∃ line ∈ lines, makefileTargetOfLine line.data = some t := by
  unfold makefileTargets
  rw [mem_colonFold, mem_phonyFold]
  simp

theorem string_append_left_cancel {a b c : String} (h : a ++ b = a ++ c) :
    b = c := by
  have hd : a.data ++ b.data = a.data ++ c.data := congrArg String.data h
  have hbc : b.data = c.data := List.append_cancel_left hd
  exact String.ext hbc

theorem mkMakeScript_inj : Function.Injective mkMakeScript := by
  intro a b h
  exact string_append_left_cancel (congrArg Script.name h)

theorem parseMakefile_names_nodup (lines : List String) :
    ((parseMakefile lines).map Script.name).Nodup := by
  unfold parseMakefile
  rw [List.map_map]
  have hfn : Script.name ∘ mkMakeScript = fun t => "make:" ++ t := rfl
  rw [hfn]
  exact (makefileTargets_nodup lines).map
    (fun a b h => string_append_left_cancel h)

theorem make_name_notin_defaults (t : String) (d : Script)
    (hd : d ∈ getDefaultGoScripts) : "make:" ++ t ≠ d.name := by
  intro he
  have h1 : ("make:" ++ t).data.take 5 = "make:".data := by
    show ("make:".data ++ t.data).take 5 = "make:".data
    rw [show (5 : Nat) = "make:".data.length from rfl]
    exact List.take_left _ _
  rw [he] at h1
  unfold getDefaultGoScripts at hd
  fin_cases hd <;> revert h1 <;> decide

theorem task_name_notin_defaults (t : String) (d : Script)
    (hd : d ∈ getDefaultGoScripts) : "task:" ++ t ≠ d.name := by
  intro he
  have h1 : ("task:" ++ t).data.take 5 = "task:".data := by
    show ("task:".data ++ t.data).take 5 = "task:".data
    rw [show (5 : Nat) = "task:".data.length from rfl]
    exact List.take_left _ _
  rw [he] at h1
  unfold getDefaultGoScripts at hd
  fin_cases hd <;> revert h1 <;> decide

/-- C9: Makefile targets (deduplicated across the `.PHONY` list and the
`target:` declarations, each named `make:<target>`) and Taskfile tasks
(named `task:<task>`) come first in the Go command list, and a built-in
toolchain command is present exactly when no Makefile or Taskfile
command already took its name. -/
theorem goParse_spec (mlines tlines : List String) :
    ((parseMakefile mlines).map Script.name).Nodup ∧
    (∀ t : String, mkMakeScript t ∈ parseMakefile mlines ↔
      ((∃ line ∈ mlines, ∃ ts, parsePhonyLine line.data = some ts ∧ t ∈ ts) ∨
        ∃ line ∈ mlines, makefileTargetOfLine line.data = some t)) ∧
    (∀ s ∈ parseMakefile mlines, ∃ t, s = mkMakeScript t) ∧
    (∀ s ∈ parseTaskfile tlines, ∃ t, s = mkTaskScript t) ∧
    (goParseScripts (some mlines) (some tlines) none).take
        ((parseMakefile mlines).length + (parseTaskfile tlines).length) =
      parseMakefile mlines ++ parseTaskfile tlines ∧
    (∀ d ∈ getDefaultGoScripts,
      (d ∈ goParseScripts (some mlines) (some tlines) none ↔
        d.name ∉ (parseMakefile mlines ++ parseTaskfile tlines).map Script.name)) := by
  have hunfold : goParseScripts (some mlines) (some tlines) none =
      (parseMakefile mlines ++ parseTaskfile tlines) ++
        getDefaultGoScripts.filter
          (fun s => !(((parseMakefile mlines ++ parseTaskfile tlines).map
            Script.name).contains s.name)) := rfl
  refine ⟨parseMakefile_names_nodup mlines, ?_, ?_, ?_, ?_, ?_⟩
  · intro t
    rw [← mem_makefileTargets]
    unfold parseMakefile
    constructor
    · intro h
      rcases List.mem_map.mp h with ⟨u, hu, hut⟩
      exact (mkMakeScript_inj hut) ▸ hu
    · exact fun h => List.mem_map_of_mem mkMakeScript h
  · intro s hs
    unfold parseMakefile at hs
    rcases List.mem_map.mp hs with ⟨u, _, hus⟩
    exact ⟨u, hus.symm⟩
  · intro s hs
    unfold parseTaskfile at hs
    cases hb : taskfileBlock (tlines.map String.data) with
    | none => rw [hb] at hs; cases hs
    | some block =>
      rw [hb] at hs
      rcases List.mem_map.mp hs with ⟨u, _, hus⟩
      exact ⟨u, hus.symm⟩
  · rw [hunfold, ← List.length_append]
    exact List.take_left _ _
  · intro d hd
    rw [hunfold]
    constructor
    · intro hmem
      rcases List.mem_append.mp hmem with hmem | hmem
      · rcases List.mem_append.mp hmem with hmem | hmem
        · exfalso
          unfold parseMakefile at hmem
          rcases List.mem_map.mp hmem with ⟨u, _, hud⟩
          exact make_name_notin_defaults u d hd (congrArg Script.name hud)
        · exfalso
          unfold parseTaskfile at hmem
          cases hb : taskfileBlock (tlines.map String.data) with
          | none => rw [hb] at hmem; cases hmem
          | some block =>
            rw [hb] at hmem
            rcases List.mem_map.mp hmem with ⟨u, _, hud⟩
            exact task_name_notin_defaults u d hd (congrArg Script.name hud)
      · have := (List.mem_filter.mp hmem).2
        simpa using this
    · intro hname
      refine List.mem_append.mpr (Or.inr (List.mem_filter.mpr ⟨hd, ?_⟩))
      simpa using hname

/-- Witness for C9 (spec scenario 5): a Makefile declaring
`.PHONY: build test` together with a `build:` rule yields `make:build`
and `make:test`, while built-ins like `run` stay present because their
names do not collide with the namespaced targets. -/
theorem goParse_spec_witness :
    mkMakeScript "build" ∈ parseMakefile [".PHONY: build test", "build:"] ∧
    mkMakeScript "test" ∈ parseMakefile [".PHONY: build test", "build:"] ∧
    { name := "run", command := "go run .",
      description := some "Run the main package" } ∈
      goParseScripts (some [".PHONY: build test", "build:"]) (some []) none := by
  have h := goParse_spec [".PHONY: build test", "build:"] []
  refine ⟨?_, ?_, ?_⟩
  · exact (h.2.1 "build").mpr
      (Or.inl ⟨".PHONY: build test", by decide, ["build", "test"], by decide, by decide⟩)
  · exact (h.2.1 "test").mpr
      (Or.inl ⟨".PHONY: build test", by decide, ["build", "test"], by decide, by decide⟩)
  · exact (h.2.2.2.2.2 _ (by decide)).mpr (by decide)

end Wami
